import Mathlib

/-
Verification development for the thread-scheduling core of the pintos-style
kernel declared in src/pintos/src/threads/thread.h.  The repository contains
only the header; the bodies of thread.c, synch.c and fixed-point.h are not
present, so every behavioural definition below is modelled from the
specification (spec.md) and carries a doc comment beginning with
`Modelled from the spec:`.  Enumerations, constants and structure fields are
taken directly from thread.h.
-/

set_option maxRecDepth 10000

namespace Pintos

/-- States in a thread's life cycle (thread.h, `enum thread_status`). -/
inductive thread_status where
  | THREAD_RUNNING
  | THREAD_READY
  | THREAD_BLOCKED
  | THREAD_DYING
deriving DecidableEq, Repr

/-- Error value for tid_t (thread.h, `TID_ERROR`). -/
def TID_ERROR : Int := -1

/-- Lowest priority (thread.h). -/
def PRI_MIN : Int := 0

/-- Default priority (thread.h). -/
def PRI_DEFAULT : Int := 31

/-- Highest priority (thread.h). -/
def PRI_MAX : Int := 63

/-- Status for a loading process (thread.h, `enum load_status`). -/
inductive load_status where
  | LOAD_RUNNING
  | LOAD_FAILED
  | LOAD_SUCCESS
deriving DecidableEq, Repr

/-!  17.14 fixed-point arithmetic.

Modelled from the spec: fixed-point.h is absent from the repository; §4.3
fixes the representation as 17.14 binary fixed point with the reference
conversion formulas (round to nearest, ties away from zero), with the C
semantics of truncating integer division (`Int.tdiv`).  An `fp` value is the
raw integer holding `value · 2^14`. -/

/-- The 17.14 fixed-point scaling factor `2^14`. -/
def fp_f : Int := 16384

/-- Convert an integer to fixed point. -/
def to_fp (n : Int) : Int := n * fp_f

/-- Convert fixed point to integer, rounding to nearest, ties away from
zero: `(x + f/2)/f` for nonnegative `x`, `(x - f/2)/f` for negative `x`,
with C truncating division. -/
def fp_to_int_round (x : Int) : Int :=
  if 0 ≤ x then Int.tdiv (x + fp_f / 2) fp_f else Int.tdiv (x - fp_f / 2) fp_f

/-- Multiply two fixed-point values (64-bit intermediate in C; `Int` here). -/
def fp_mul (x y : Int) : Int := Int.tdiv (x * y) fp_f

/-- Divide two fixed-point values. -/
def fp_div (x y : Int) : Int := Int.tdiv (x * fp_f) y

/-- Multiply a fixed-point value by an integer. -/
def fp_mul_int (x n : Int) : Int := x * n

/-- Divide a fixed-point value by an integer. -/
def fp_div_int (x n : Int) : Int := Int.tdiv x n

/-- Add an integer to a fixed-point value. -/
def fp_add_int (x n : Int) : Int := x + n * fp_f

/-!  MLFQS accounting formulas (spec §4.3). -/

/-- Modelled from the spec: every tick the running thread's recent-CPU-usage
estimate is incremented by one (fixed-point) unit; thread.c is absent. -/
def recent_cpu_tick (rc : Int) : Int := rc + to_fp 1

/-- Modelled from the spec: per-second load-average recomputation
`load_avg' = (59/60)·load_avg + (1/60)·ready_and_running_count`, all in
fixed point; thread.c is absent. -/
def load_avg_second (load_avg ready_and_running : Int) : Int :=
  fp_mul (fp_div (to_fp 59) (to_fp 60)) load_avg +
    fp_mul (fp_div (to_fp 1) (to_fp 60)) (to_fp ready_and_running)

/-- Modelled from the spec: per-second recent-CPU decay
`recent_cpu' = (2·load_avg)/(2·load_avg + 1) · recent_cpu + nice`,
matching the reference formulas; thread.c is absent. -/
def recent_cpu_second (load_avg nice rc : Int) : Int :=
  fp_mul (fp_div (fp_mul_int load_avg 2) (fp_add_int (fp_mul_int load_avg 2) 1)) rc +
    to_fp nice

/-- Clamp a priority into `[PRI_MIN, PRI_MAX]`. -/
def clamp_pri (p : Int) : Int := max PRI_MIN (min PRI_MAX p)

/-- Modelled from the spec: every fourth tick each thread's priority is
recomputed as `PRI_MAX − (recent_cpu/4) − (nice·2)`, converted from fixed
point rounding to nearest and clamped to `[PRI_MIN, PRI_MAX]`; thread.c is
absent. -/
def mlfqs_priority (rc nice : Int) : Int :=
  clamp_pri (PRI_MAX - fp_to_int_round (fp_div_int rc 4) - nice * 2)

/-!  Data model.

`struct thread` (thread.h lines 114-150): the scheduler-relevant fields are
kept with their source names.  The `elem`/`allelem` intrusive list nodes are
represented by membership of the thread's `tid` in the owning structure's
own list (ready list, lock waiter list, all-threads list), removing the
pointer aliasing; `name`, `stack`, `magic` and the USERPROG file-descriptor
fields are opaque to the scheduler and omitted. -/

structure thread where
  tid : Int
  status : thread_status
  priority : Int
  b_priority : Int
  donated : Bool
  nice : Int
  recent_cpu : Int
  waiting_on_lock : Option Int
deriving DecidableEq, Repr

/-- Scheduler view of a lock (synch.h is external): its identifier, the
thread currently holding it, and the tids of the threads blocked on it.
A thread's `acquired_locks` list is represented by the set of locks whose
`holder` is that thread. -/
structure lock where
  lid : Int
  holder : Option Int
  waiters : List Int
deriving DecidableEq, Repr

/-- A relationship between a child and parent process
(thread.h, `struct relationship`); the `relation_lock`/`wait_cond`
synchronisation primitives are external and represented by the atomic
semantics of the tracker operations below. -/
structure relationship where
  parent_exited : Bool
  child_exited : Bool
  exit_status : Int
  load_status : load_status
  child_pid : Int
deriving DecidableEq, Repr

/-- Modelled from the spec: the kernel state the scheduling core maintains —
the all-threads registry, the ready structure, the running thread, the next
fresh tid, the lock table, the MLFQS load average, the tick counter and the
boot-time policy switch `thread_mlfqs` (thread.c is absent). -/
structure KState where
  threads : List thread
  ready : List Int
  running : Int
  next_tid : Int
  locks : List lock
  load_avg : Int
  ticks : Nat
  mlfqs : Bool
deriving DecidableEq, Repr

/-- Look up a thread by tid in the all-threads registry. -/
def getThread (st : KState) (i : Int) : Option thread :=
  st.threads.find? (fun t => t.tid == i)

/-- Apply `f` to the thread with tid `i`. -/
def updThread (st : KState) (i : Int) (f : thread → thread) : KState :=
  { st with threads := st.threads.map (fun t => if t.tid == i then f t else t) }

/-- Effective priority of tid `i` (`-1` if absent; under the invariant every
tid consulted is present). -/
def prioOf (st : KState) (i : Int) : Int :=
  match getThread st i with
  | some t => t.priority
  | none => -1

/-- The tids of all registered threads. -/
def tids (st : KState) : List Int := st.threads.map (fun t => t.tid)

/-- The holder of lock `l`, if any. -/
def lock_holder (st : KState) (l : Int) : Option Int :=
  match st.locks.find? (fun k => k.lid == l) with
  | some k => k.holder
  | none => none

/-!  Ready-set selection (spec §4.2).

The ready structure is kept in arrival order; selection scans for the
highest effective priority, returning the earliest among equals, which gives
highest-priority-first with FIFO tie-breaking. -/

/-- First element attaining the maximum of `f` (ties go to the earlier
element). -/
def pick_next (f : Int → Int) : List Int → Option Int
  | [] => none
  | x :: xs =>
    match pick_next f xs with
    | none => some x
    | some y => if f x < f y then some y else some x

/-- Remove the first occurrence of `i`. -/
def remove_first (i : Int) : List Int → List Int
  | [] => []
  | x :: xs => if x == i then xs else x :: remove_first i xs

/-- Modelled from the spec: the running thread leaves the CPU with new
status `s`; when `s` is READY it re-enqueues at the tail of the ready
structure (thread.c is absent). -/
def vacate (st : KState) (s : thread_status) : KState :=
  let st' := updThread st st.running (fun t => { t with status := s })
  if s = thread_status.THREAD_READY then { st' with ready := st'.ready ++ [st.running] }
  else st'

/-- Modelled from the spec: pick the highest-priority ready thread (first
among equals), remove it from the ready structure, mark it RUNNING, and
reclaim DYING threads on this context switch; fatal (`none`) when no thread
is ready (thread.c is absent). -/
def schedule (st : KState) : Option KState :=
  match pick_next (prioOf st) st.ready with
  | none => none
  | some n =>
    some { st with
           threads :=
             (st.threads.map (fun t =>
               if t.tid == n then { t with status := thread_status.THREAD_RUNNING } else t)).filter
               (fun t => !(t.status == thread_status.THREAD_DYING)),
           ready := remove_first n st.ready,
           running := n }

/-!  Thread operations (thread.h declarations; bodies modelled from the
spec). -/

/-- Modelled from the spec: `spawn(name, priority, entry, aux)` creates a new
thread in READY state with the given base priority and registers it; a
priority outside `[PRI_MIN, PRI_MAX]` is an error (`TID_ERROR`), not a
silent clamp (thread.c is absent; declared as `thread_create`). -/
def thread_create (st : KState) (priority : Int) : Int × KState :=
  if priority < PRI_MIN ∨ PRI_MAX < priority then (TID_ERROR, st)
  else
    let t : thread :=
      { tid := st.next_tid, status := thread_status.THREAD_READY, priority := priority,
        b_priority := priority, donated := false, nice := 0, recent_cpu := 0,
        waiting_on_lock := none }
    (st.next_tid,
     { st with threads := st.threads ++ [t],
               ready := st.ready ++ [st.next_tid],
               next_tid := st.next_tid + 1 })

/-- Modelled from the spec: the running thread blocks itself and the
scheduler picks the next thread (thread.c is absent). -/
def thread_block (st : KState) : Option KState :=
  schedule (vacate st thread_status.THREAD_BLOCKED)

/-- Modelled from the spec: `yield()` re-enqueues the current thread at the
tail of its priority band and reschedules (thread.c is absent). -/
def thread_yield (st : KState) : Option KState :=
  schedule (vacate st thread_status.THREAD_READY)

/-- Modelled from the spec: yield only when some ready thread outranks the
running thread — the synchronous preemption check run after every priority
change (thread.c is absent; declared as `thread_yield_priority`). -/
def thread_yield_priority (st : KState) : Option KState :=
  match pick_next (prioOf st) st.ready with
  | none => some st
  | some n => if prioOf st st.running < prioOf st n then thread_yield st else some st

/-- Modelled from the spec: `on_unblock(t)` moves a BLOCKED thread to READY,
inserts it into the ready structure, and immediately runs the preemption
check; unblocking a non-BLOCKED thread is an assertion failure (`none`)
(thread.c is absent; declared as `thread_unblock`). -/
def thread_unblock (st : KState) (i : Int) : Option KState :=
  match getThread st i with
  | none => none
  | some t =>
    if t.status = thread_status.THREAD_BLOCKED then
      thread_yield_priority
        { updThread st i (fun u => { u with status := thread_status.THREAD_READY }) with
          ready := st.ready ++ [i] }
    else none

/-- Modelled from the spec: the exiting thread transitions to DYING and the
scheduler switches away; the DYING thread's resources are reclaimed on that
context switch, never by the thread itself (thread.c is absent; declared as
`thread_exit`, `NO_RETURN`). -/
def thread_exit (st : KState) : Option KState :=
  schedule (vacate st thread_status.THREAD_DYING)

/-!  MLFQS per-state accounting (spec §4.3). -/

/-- Threads that are ready or running (the model keeps no idle thread, so
the running thread always counts). -/
def ready_and_running_count (st : KState) : Int := (st.ready.length : Int) + 1

/-- Modelled from the spec: charge the current tick to the running thread's
recent-CPU estimate (thread.c is absent). -/
def mlfqs_tick_cpu (st : KState) : KState :=
  updThread st st.running (fun t => { t with recent_cpu := recent_cpu_tick t.recent_cpu })

/-- Modelled from the spec: one-second boundary — recompute the load average
first, then decay every thread's recent-CPU estimate using the new load
average (thread.c is absent). -/
def mlfqs_on_second (st : KState) : KState :=
  let la := load_avg_second st.load_avg (ready_and_running_count st)
  { st with load_avg := la,
            threads := st.threads.map (fun t =>
              { t with recent_cpu := recent_cpu_second la t.nice t.recent_cpu }) }

/-- Modelled from the spec: every fourth tick, recompute every thread's
priority from its recent-CPU estimate and niceness (thread.c is absent). -/
def mlfqs_recompute (st : KState) : KState :=
  { st with threads := st.threads.map (fun t =>
      { t with priority := mlfqs_priority t.recent_cpu t.nice }) }

/-- Ticks per second for the periodic timer (timer.h is external; the
reference period). -/
def TIMER_FREQ : Nat := 100

/-- Modelled from the spec: the MLFQS accounting performed inside the timer
interrupt (when the policy is enabled) — per-tick charge to the running
thread, per-second load-average/decay recomputation, every-fourth-tick
priority recomputation (thread.c is absent). -/
def tick_accounting (st : KState) : KState :=
  let st1 := { st with ticks := st.ticks + 1 }
  let st2 := if st1.mlfqs then mlfqs_tick_cpu st1 else st1
  let st3 := if st2.mlfqs ∧ st2.ticks % TIMER_FREQ = 0 then mlfqs_on_second st2 else st2
  if st3.mlfqs ∧ st3.ticks % 4 = 0 then mlfqs_recompute st3 else st3

/-- Modelled from the spec: the timer interrupt runs the MLFQS accounting and
then asks the scheduler whether to preempt; every fourth tick the running
thread's time slice expires and it yields (thread.c is absent; declared as
`thread_tick`). -/
def thread_tick (st : KState) : Option KState :=
  if (tick_accounting st).ticks % 4 = 0 then thread_yield (tick_accounting st)
  else thread_yield_priority (tick_accounting st)

/-- Modelled from the spec: under MLFQS the manual priority setter is a
no-op, not a fatal error; under round-robin it updates the calling thread's
base priority, keeping a strictly higher donated effective priority
(thread.c is absent; declared as `thread_set_priority`). -/
def thread_set_priority (st : KState) (new_priority : Int) : KState :=
  if st.mlfqs then st
  else
    updThread st st.running (fun t =>
      { t with b_priority := new_priority,
               priority :=
                 if t.donated ∧ new_priority < t.priority then t.priority
                 else new_priority })

/-!  Priority donation (spec §4.4). -/

/-- Modelled from the spec: `donate(waiter, holder)` — called when `waiter`
is about to block on a lock held by `holder`: if `waiter`'s effective
priority exceeds `holder`'s, raise `holder`'s to it, mark `holder` as
donation-recipient, and recursively propagate along the chain while the
current holder is itself blocked on another lock.  The lock-wait graph is
required to be acyclic, so the chain length is bounded; `fuel` bounds the
recursion depth (thread.c/synch.c are absent; declared as `thread_donate`).
-/
def donate (fuel : Nat) (waiter holder : Int) (st : KState) : KState :=
  match fuel with
  | 0 => st
  | fuel + 1 =>
    match getThread st waiter, getThread st holder with
    | some w, some h =>
      if h.priority < w.priority then
        let st' := updThread st holder
          (fun t => { t with priority := w.priority, donated := true })
        match h.waiting_on_lock with
        | none => st'
        | some l =>
          match lock_holder st l with
          | none => st'
          | some h2 => donate fuel holder h2 st'
      else st
    | _, _ => st

/-- The effective priorities of all waiters on locks held by `i` other than
lock `l`. -/
def donor_priorities (st : KState) (i l : Int) : List Int :=
  (st.locks.filter (fun k => k.holder == some i && !(k.lid == l))).flatMap
    (fun k => k.waiters.filterMap (fun w => (getThread st w).map (fun t => t.priority)))

/-- Modelled from the spec: `release(holder, lock)` — recompute `holder`'s
effective priority as the maximum of its base priority and the highest
priority among waiters on any other lock it still holds; the donation flag
stays set only when some remaining lock grants a higher donated priority
(thread.c/synch.c are absent; declared as `thread_next_donation`). -/
def release (st : KState) (holder l : Int) : KState :=
  match getThread st holder with
  | none => st
  | some h =>
    let p := (donor_priorities st holder l).foldr max h.b_priority
    let st' := { st with locks := st.locks.map (fun k =>
                   if k.lid == l then { k with holder := none } else k) }
    updThread st' holder (fun t =>
      { t with priority := p, donated := decide (h.b_priority < p) })

/-!  Relationship tracker (spec §4.5). -/

/-- Outcome of a `wait` call: the recorded exit status, a synchronous error,
or "the parent must block until the child reports exit". -/
inductive wait_result where
  | ok (status : Int)
  | error
  | blocked
deriving DecidableEq, Repr

/-- Modelled from the spec: `register_child(parent, child)` creates the
shared record at child-creation time (process.c is absent). -/
def register_child (children : List relationship) (child_id : Int) : List relationship :=
  children ++ [{ parent_exited := false, child_exited := false, exit_status := 0,
                 load_status := load_status.LOAD_RUNNING, child_pid := child_id }]

/-- Modelled from the spec: `report_exit(rel, status)` — the child records
its exit status, marks its side exited and signals the condition
(process.c is absent). -/
def report_exit (children : List relationship) (child_id status : Int) :
    List relationship :=
  children.map (fun r =>
    if r.child_pid == child_id then { r with child_exited := true, exit_status := status }
    else r)

/-- Modelled from the spec: `wait(parent, child_id)` — error when no such
child exists (including a child already waited for, since the first
successful wait removes the relationship from the parent's child list); when
the child has already exited, return the recorded status without blocking
and free the relationship; otherwise the parent blocks on the relationship's
condition (process.c is absent). -/
def wait (children : List relationship) (child_id : Int) :
    wait_result × List relationship :=
  match children.find? (fun r => r.child_pid == child_id) with
  | none => (wait_result.error, children)
  | some r =>
    if r.child_exited then
      (wait_result.ok r.exit_status,
       children.filter (fun r' => !(r'.child_pid == child_id)))
    else (wait_result.blocked, children)

/-!  The operation alphabet and the step relation (spec §§4.1-4.2, §6). -/

/-- The scheduler operations a run is built from. -/
inductive Op where
  | spawn (priority : Int)
  | block
  | unblock (tid : Int)
  | yield
  | tick
  | exit
deriving DecidableEq, Repr

/-- One scheduler operation; `none` is a fatal condition (assertion failure
or scheduling with no ready thread). -/
def step (op : Op) (st : KState) : Option KState :=
  match op with
  | Op.spawn p => some (thread_create st p).2
  | Op.block => thread_block st
  | Op.unblock i => thread_unblock st i
  | Op.yield => thread_yield st
  | Op.tick => thread_tick st
  | Op.exit => thread_exit st

/-- Run a sequence of operations. -/
def run (ops : List Op) (st : KState) : Option KState :=
  match ops with
  | [] => some st
  | op :: rest =>
    match step op st with
    | none => none
    | some st' => run rest st'

/-!  Invariants. -/

/-- The status field and ready-structure membership agree: a thread is on
the ready structure iff its status is `THREAD_READY`. -/
def ready_status_agree (st : KState) : Prop :=
  ∀ t ∈ st.threads, (t.tid ∈ st.ready ↔ t.status = thread_status.THREAD_READY)

/-- The scheduler's global invariant: unique tids, a duplicate-free ready
structure whose members are registered threads, status/ready agreement, a
registered RUNNING thread, and tids below the allocation counter. -/
def Inv (st : KState) : Prop :=
  (tids st).Nodup ∧
  st.ready.Nodup ∧
  ready_status_agree st ∧
  (∀ i ∈ st.ready, i ∈ tids st) ∧
  (∃ t ∈ st.threads, t.tid = st.running ∧ t.status = thread_status.THREAD_RUNNING) ∧
  (∀ t ∈ st.threads, t.status = thread_status.THREAD_RUNNING → t.tid = st.running) ∧
  (∀ t ∈ st.threads, t.tid < st.next_tid)

/-- The invariant at the mid-point of a context switch: the CPU has been
vacated, so no thread is RUNNING. -/
def MidInv (st : KState) : Prop :=
  (tids st).Nodup ∧
  st.ready.Nodup ∧
  ready_status_agree st ∧
  (∀ i ∈ st.ready, i ∈ tids st) ∧
  (∀ t ∈ st.threads, t.status ≠ thread_status.THREAD_RUNNING) ∧
  (∀ t ∈ st.threads, t.tid < st.next_tid)

/-!  Concrete states used to exercise the model. -/

/-- A small round-robin boot state: the main thread (tid 0) running and one
ready thread (tid 1). -/
def init0 : KState :=
  { threads := [⟨0, thread_status.THREAD_RUNNING, 31, 31, false, 0, 0, none⟩,
                ⟨1, thread_status.THREAD_READY, 31, 31, false, 0, 0, none⟩],
    ready := [1], running := 0, next_tid := 2, locks := [], load_avg := 0,
    ticks := 0, mlfqs := false }

/-- The same boot state under the MLFQS policy. -/
def mst0 : KState :=
  { threads := [⟨0, thread_status.THREAD_RUNNING, 31, 31, false, 0, 0, none⟩,
                ⟨1, thread_status.THREAD_READY, 31, 31, false, 0, 0, none⟩],
    ready := [1], running := 0, next_tid := 2, locks := [], load_avg := 0,
    ticks := 0, mlfqs := true }

/-- The main thread of `init0`/`mst0`. -/
def t0 : thread := ⟨0, thread_status.THREAD_RUNNING, 31, 31, false, 0, 0, none⟩

/-- Chained-donation scenario: W (tid 1, priority 30) blocks on lock A
(lid 10) held by L (tid 2, priority 10), while L is blocked on lock B
(lid 11) held by M (tid 3, priority 5). -/
def dst : KState :=
  { threads := [⟨1, thread_status.THREAD_BLOCKED, 30, 30, false, 0, 0, some 10⟩,
                ⟨2, thread_status.THREAD_BLOCKED, 10, 10, false, 0, 0, some 11⟩,
                ⟨3, thread_status.THREAD_RUNNING, 5, 5, false, 0, 0, none⟩],
    ready := [], running := 3, next_tid := 4,
    locks := [⟨10, some 2, [1]⟩, ⟨11, some 3, [2]⟩],
    load_avg := 0, ticks := 0, mlfqs := false }

/-- Single-donation scenario from the spec: L (tid 1, priority 10) holds
lock 7; H (tid 2, priority 20) blocks on it. -/
def d2 : KState :=
  { threads := [⟨1, thread_status.THREAD_RUNNING, 10, 10, false, 0, 0, none⟩,
                ⟨2, thread_status.THREAD_BLOCKED, 20, 20, false, 0, 0, some 7⟩],
    ready := [], running := 1, next_tid := 3,
    locks := [⟨7, some 1, [2]⟩],
    load_avg := 0, ticks := 0, mlfqs := false }

/-- An operation sequence exercising every constructor of `Op`. -/
def demo_ops : List Op :=
  [Op.spawn 40, Op.yield, Op.tick, Op.block, Op.unblock 2, Op.exit]

/-- The state reached by `demo_ops` from `init0`. -/
def st_demo1 : KState := (run demo_ops init0).getD init0

/-- The state reached by exiting the main thread of `init0`. -/
def st_x : KState := (thread_exit init0).getD init0

/-- The state reached from `st_x` by a further yield. -/
def st_y : KState := (run [Op.yield] st_x).getD init0

/-- A one-child relationship list for child pid 7. -/
def crel : List relationship := register_child [] 7

/-!  Basic lemmas about the ready-set selection helpers. -/

theorem pick_next_mem {f : Int → Int} :
    ∀ {l : List Int} {x : Int}, pick_next f l = some x → x ∈ l := by
  intro l
  induction l with
  | nil => intro x h; exact absurd h (by simp [pick_next])
  | cons a l ih =>
    intro x h
    unfold pick_next at h
    cases hres : pick_next f l with
    | none =>
      rw [hres] at h
      simp only [Option.some.injEq] at h
      simp [h]
    | some y =>
      rw [hres] at h
      by_cases hlt : f a < f y
      · simp only [hlt, if_true, Option.some.injEq] at h
        subst h
        exact List.mem_cons_of_mem _ (ih hres)
      · simp only [hlt, if_false, Option.some.injEq] at h
        simp [h]

theorem pick_next_eq_of_strict_max {f : Int → Int} :
    ∀ {l : List Int} {x : Int}, x ∈ l → (∀ y ∈ l, y ≠ x → f y < f x) →
      pick_next f l = some x := by
  intro l
  induction l with
  | nil => intro x hx; exact absurd hx (by simp)
  | cons a l ih =>
    intro x hx hmax
    rcases List.mem_cons.mp hx with hxa | hxl
    · subst hxa
      unfold pick_next
      cases hres : pick_next f l with
      | none => rfl
      | some y =>
        have hy : y ∈ l := pick_next_mem hres
        by_cases hyx : y = x
        · subst hyx; simp
        · have : f y < f x := hmax y (List.mem_cons_of_mem _ hy) hyx
          simp [not_lt.mpr (le_of_lt this)]
    · by_cases hax : a = x
      · subst hax
        unfold pick_next
        cases hres : pick_next f l with
        | none => rfl
        | some y =>
          have hy : y ∈ l := pick_next_mem hres
          by_cases hyx : y = a
          · subst hyx; simp
          · have : f y < f a := hmax y (List.mem_cons_of_mem _ hy) hyx
            simp [not_lt.mpr (le_of_lt this)]
      · have hres : pick_next f l = some x :=
          ih hxl (fun y hy hyx => hmax y (List.mem_cons_of_mem _ hy) hyx)
        unfold pick_next
        rw [hres]
        have : f a < f x := hmax a (List.mem_cons_self a l) hax
        simp [this]

theorem remove_first_cons_self {i : Int} {xs : List Int} :
    remove_first i (i :: xs) = xs := by
  conv_lhs => rw [remove_first]
  simp

theorem remove_first_cons_ne {i x : Int} {xs : List Int} (h : x ≠ i) :
    remove_first i (x :: xs) = x :: remove_first i xs := by
  conv_lhs => rw [remove_first]
  simp [h]

theorem mem_of_mem_remove_first {i a : Int} :
    ∀ {l : List Int}, a ∈ remove_first i l → a ∈ l := by
  intro l
  induction l with
  | nil => intro h; exact absurd h (by simp [remove_first])
  | cons x xs ih =>
    intro h
    by_cases hx : x = i
    · subst hx
      rw [remove_first_cons_self] at h
      exact List.mem_cons_of_mem _ h
    · rw [remove_first_cons_ne hx] at h
      rcases List.mem_cons.mp h with h | h
      · simp [h]
      · exact List.mem_cons_of_mem _ (ih h)

theorem nodup_remove_first {i : Int} :
    ∀ {l : List Int}, l.Nodup → (remove_first i l).Nodup := by
  intro l
  induction l with
  | nil => intro _; simp [remove_first]
  | cons x xs ih =>
    intro h
    rcases List.nodup_cons.mp h with ⟨hx, hxs⟩
    by_cases hxi : x = i
    · subst hxi
      rw [remove_first_cons_self]
      exact hxs
    · rw [remove_first_cons_ne hxi]
      exact List.nodup_cons.mpr ⟨fun hc => hx (mem_of_mem_remove_first hc), ih hxs⟩

theorem mem_remove_first_iff {i a : Int} :
    ∀ {l : List Int}, l.Nodup → (a ∈ remove_first i l ↔ a ∈ l ∧ a ≠ i) := by
  intro l
  induction l with
  | nil => intro _; simp [remove_first]
  | cons x xs ih =>
    intro h
    rcases List.nodup_cons.mp h with ⟨hx, hxs⟩
    by_cases hxi : x = i
    · subst hxi
      rw [remove_first_cons_self]
      simp only [List.mem_cons]
      constructor
      · intro ha
        exact ⟨Or.inr ha, fun hax => hx (hax ▸ ha)⟩
      · rintro ⟨ha | ha, hne⟩
        · exact absurd ha hne
        · exact ha
    · rw [remove_first_cons_ne hxi]
      simp only [List.mem_cons, ih hxs]
      constructor
      · rintro (ha | ⟨ha, hne⟩)
        · exact ⟨Or.inl ha, fun hc => hxi (ha ▸ hc)⟩
        · exact ⟨Or.inr ha, hne⟩
      · rintro ⟨ha | ha, hne⟩
        · exact Or.inl ha
        · exact Or.inr ⟨ha, hne⟩

/-!  Lemmas about registry lookup and update. -/

theorem getThread_some {st : KState} {i : Int} {t : thread}
    (h : getThread st i = some t) : t ∈ st.threads ∧ t.tid = i := by
  refine ⟨List.mem_of_find?_eq_some h, ?_⟩
  have := List.find?_some h
  simpa using this

theorem getThread_updThread (st : KState) (i : Int) (f : thread → thread)
    (hf : ∀ t, (f t).tid = t.tid) (j : Int) :
    getThread (updThread st i f) j
      = (getThread st j).map (fun t => if t.tid == i then f t else t) := by
  unfold getThread updThread
  simp only [List.find?_map]
  have hpred : ((fun t => t.tid == j) ∘ fun t => if t.tid == i then f t else t)
      = (fun t : thread => t.tid == j) := by
    funext t
    by_cases h : t.tid = i
    · simp [Function.comp, h, hf]
    · simp [Function.comp, h]
  rw [hpred]

theorem tids_updThread (st : KState) (i : Int) (f : thread → thread)
    (hf : ∀ t, (f t).tid = t.tid) : tids (updThread st i f) = tids st := by
  unfold tids updThread
  simp only [List.map_map]
  apply List.map_congr_left
  intro t _
  by_cases h : t.tid = i
  · simp [Function.comp, h, hf]
  · simp [Function.comp, h]

theorem prioOf_updThread (st : KState) (i : Int) (f : thread → thread)
    (hf : ∀ t, (f t).tid = t.tid) (hp : ∀ t, (f t).priority = t.priority) (j : Int) :
    prioOf (updThread st i f) j = prioOf st j := by
  unfold prioOf
  rw [getThread_updThread st i f hf j]
  cases h : getThread st j with
  | none => rfl
  | some t =>
    by_cases hti : t.tid = i
    · simp [hti, hp]
    · simp [hti]

theorem tid_inj {st : KState} (hnd : (tids st).Nodup) {t u : thread}
    (ht : t ∈ st.threads) (hu : u ∈ st.threads) (h : t.tid = u.tid) : t = u :=
  List.inj_on_of_nodup_map hnd ht hu h

theorem map_tid_of_tid_preserved {l : List thread} {f : thread → thread}
    (hf : ∀ t, (f t).tid = t.tid) :
    (l.map f).map (fun t => t.tid) = l.map (fun t => t.tid) := by
  rw [List.map_map]
  apply List.map_congr_left
  intro t _
  simp [Function.comp, hf]

/-!  Invariant preservation. -/

theorem running_not_mem_ready {st : KState} (h : Inv st) : st.running ∉ st.ready := by
  obtain ⟨-, -, hrs, -, ⟨tr, htr, htid, hstat⟩, -, -⟩ := h
  intro hmem
  have hready := (hrs tr htr).mp (htid ▸ hmem)
  rw [hready] at hstat
  exact absurd hstat (by simp)

theorem vacate_midinv {st : KState} {s : thread_status}
    (hs : s ≠ thread_status.THREAD_RUNNING) (h : Inv st) : MidInv (vacate st s) := by
  have hnr : st.running ∉ st.ready := running_not_mem_ready h
  obtain ⟨hnd, hrd, hrs, hrm, ⟨tr, htr, htid, hstat⟩, huniq, hlt⟩ := h
  have hth : (vacate st s).threads
      = st.threads.map (fun t => if t.tid == st.running then { t with status := s } else t) := by
    unfold vacate updThread
    split <;> rfl
  have hready : (vacate st s).ready
      = if s = thread_status.THREAD_READY then st.ready ++ [st.running] else st.ready := by
    unfold vacate updThread
    by_cases hs' : s = thread_status.THREAD_READY <;> simp [hs']
  have hrun2 : (vacate st s).running = st.running := by
    unfold vacate updThread
    split <;> rfl
  have hnt : (vacate st s).next_tid = st.next_tid := by
    unfold vacate updThread
    split <;> rfl
  have htids : tids (vacate st s) = tids st := by
    unfold tids
    rw [hth]
    exact map_tid_of_tid_preserved (fun t => by by_cases ht : t.tid = st.running <;> simp [ht])
  refine ⟨?_, ?_, ?_, ?_, ?_, ?_⟩
  · rw [htids]; exact hnd
  · rw [hready]
    by_cases hs' : s = thread_status.THREAD_READY
    · simp only [hs', if_true]
      rw [List.nodup_append]
      exact ⟨hrd, List.nodup_singleton _, by
        intro a ha hb
        rw [List.mem_singleton] at hb
        exact hnr (hb ▸ ha)⟩
    · simp only [hs', if_false]
      exact hrd
  · intro t' ht'
    rw [hth] at ht'
    obtain ⟨u, hu, rfl⟩ := List.mem_map.mp ht'
    rw [hready]
    by_cases hut : u.tid = st.running
    · simp only [hut, beq_self_eq_true, if_true]
      by_cases hs' : s = thread_status.THREAD_READY
      · simp [hs', hut]
      · simp only [hs', if_false, iff_false]
        intro hc
        exact hnr (by simpa [hut] using hc)
    · simp only [beq_iff_eq, hut, if_false]
      by_cases hs' : s = thread_status.THREAD_READY
      · simp only [hs', if_true, List.mem_append, List.mem_singleton]
        rw [← hrs u hu]
        constructor
        · rintro (hc | hc)
          · exact hc
          · exact absurd hc hut
        · intro hc; exact Or.inl hc
      · simp only [hs', if_false]
        exact hrs u hu
  · intro i hi
    rw [hready] at hi
    rw [htids]
    by_cases hs' : s = thread_status.THREAD_READY
    · simp only [hs', if_true, List.mem_append, List.mem_singleton] at hi
      rcases hi with hi | hi
      · exact hrm i hi
      · exact hi ▸ List.mem_map.mpr ⟨tr, htr, htid⟩
    · simp only [hs', if_false] at hi
      exact hrm i hi
  · intro t' ht'
    rw [hth] at ht'
    obtain ⟨u, hu, rfl⟩ := List.mem_map.mp ht'
    by_cases hut : u.tid = st.running
    · simp only [hut, beq_self_eq_true, if_true]
      exact hs
    · simp only [beq_iff_eq, hut, if_false]
      intro hc
      exact hut (huniq u hu hc)
  · intro t' ht'
    rw [hth] at ht'
    rw [hnt]
    obtain ⟨u, hu, rfl⟩ := List.mem_map.mp ht'
    by_cases hut : u.tid = st.running
    · simp only [hut, beq_self_eq_true, if_true]
      exact hut ▸ hlt u hu
    · simp only [beq_iff_eq, hut, if_false]
      exact hlt u hu

theorem schedule_inv {st st' : KState} (h : MidInv st) (hsch : schedule st = some st') :
    Inv st' := by
  obtain ⟨hnd, hrd, hrs, hrm, hnorun, hlt⟩ := h
  unfold schedule at hsch
  cases hpick : pick_next (prioOf st) st.ready with
  | none => rw [hpick] at hsch; exact absurd hsch (by simp)
  | some n =>
    rw [hpick] at hsch
    simp only [Option.some.injEq] at hsch
    subst hsch
    have hmemn : n ∈ st.ready := pick_next_mem hpick
    refine ⟨?_, ?_, ?_, ?_, ?_, ?_, ?_⟩
    · unfold tids
      have h0 : List.Sublist
          ((st.threads.map (fun t =>
            if t.tid == n then { t with status := thread_status.THREAD_RUNNING } else t)).filter
            (fun t => !(t.status == thread_status.THREAD_DYING)))
          (st.threads.map (fun t =>
            if t.tid == n then { t with status := thread_status.THREAD_RUNNING } else t)) :=
        List.filter_sublist _
      have h1 := List.Sublist.map (fun t : thread => t.tid) h0
      rw [map_tid_of_tid_preserved (fun t => by by_cases ht : t.tid = n <;> simp [ht])] at h1
      exact List.Nodup.sublist h1 hnd
    · exact nodup_remove_first hrd
    · intro t' ht'
      obtain ⟨ht'm, ht'p⟩ := List.mem_filter.mp ht'
      obtain ⟨u, hu, rfl⟩ := List.mem_map.mp ht'm
      by_cases hun : u.tid = n
      · simp only [hun, beq_self_eq_true, if_true]
        show n ∈ remove_first n st.ready ↔ thread_status.THREAD_RUNNING = thread_status.THREAD_READY
        constructor
        · intro hc
          exact absurd rfl ((mem_remove_first_iff hrd).mp hc).2
        · intro hc; exact absurd hc (by simp)
      · simp only [beq_iff_eq, hun, if_false]
        rw [mem_remove_first_iff hrd, ← hrs u hu]
        constructor
        · rintro ⟨hc, -⟩; exact hc
        · intro hc; exact ⟨hc, hun⟩
    · intro i hi
      obtain ⟨hir, hin⟩ := (mem_remove_first_iff hrd).mp hi
      obtain ⟨u, hu, hut⟩ := List.mem_map.mp (hrm i hir)
      have hust : u.status = thread_status.THREAD_READY := (hrs u hu).mp (hut ▸ hir)
      have hun : ¬(u.tid = n) := fun hc => hin (by rw [← hut, hc])
      apply List.mem_map.mpr
      refine ⟨u, ?_, hut⟩
      apply List.mem_filter.mpr
      refine ⟨List.mem_map.mpr ⟨u, hu, by simp [hun]⟩, by simp [hust]⟩
    · obtain ⟨u, hu, hut⟩ := List.mem_map.mp (hrm n hmemn)
      refine ⟨{ u with status := thread_status.THREAD_RUNNING }, ?_, hut, rfl⟩
      apply List.mem_filter.mpr
      refine ⟨List.mem_map.mpr ⟨u, hu, by simp [hut]⟩, by simp⟩
    · intro t' ht' hstat
      obtain ⟨ht'm, -⟩ := List.mem_filter.mp ht'
      obtain ⟨u, hu, rfl⟩ := List.mem_map.mp ht'm
      by_cases hun : u.tid = n
      · simp [hun]
      · simp only [beq_iff_eq, hun, if_false] at hstat ⊢
        exact absurd hstat (hnorun u hu)
    · intro t' ht'
      obtain ⟨ht'm, -⟩ := List.mem_filter.mp ht'
      obtain ⟨u, hu, rfl⟩ := List.mem_map.mp ht'm
      by_cases hun : u.tid = n
      · simp only [hun, beq_self_eq_true, if_true]
        exact hun ▸ hlt u hu
      · simp only [beq_iff_eq, hun, if_false]
        exact hlt u hu

theorem Inv_map_fields {st st' : KState} (h : Inv st) (f : thread → thread)
    (hf : ∀ t, (f t).tid = t.tid) (hs : ∀ t, (f t).status = t.status)
    (hth : st'.threads = st.threads.map f) (hr : st'.ready = st.ready)
    (hrun : st'.running = st.running) (hnt : st'.next_tid = st.next_tid) : Inv st' := by
  obtain ⟨hnd, hrd, hrs, hrm, ⟨tr, htr, htid, hstat⟩, huniq, hlt⟩ := h
  have htids : tids st' = tids st := by
    unfold tids
    rw [hth]
    exact map_tid_of_tid_preserved hf
  refine ⟨?_, ?_, ?_, ?_, ?_, ?_, ?_⟩
  · rw [htids]; exact hnd
  · rw [hr]; exact hrd
  · intro t' ht'
    rw [hth] at ht'
    obtain ⟨u, hu, rfl⟩ := List.mem_map.mp ht'
    rw [hr, hf, hs]
    exact hrs u hu
  · intro i hi
    rw [hr] at hi
    rw [htids]
    exact hrm i hi
  · exact ⟨f tr, by rw [hth]; exact List.mem_map.mpr ⟨tr, htr, rfl⟩,
      by rw [hf, hrun]; exact htid, by rw [hs]; exact hstat⟩
  · intro t' ht' hstat'
    rw [hth] at ht'
    obtain ⟨u, hu, rfl⟩ := List.mem_map.mp ht'
    rw [hs] at hstat'
    rw [hf, hrun]
    exact huniq u hu hstat'
  · intro t' ht'
    rw [hth] at ht'
    obtain ⟨u, hu, rfl⟩ := List.mem_map.mp ht'
    rw [hf, hnt]
    exact hlt u hu

theorem Inv_updThread {st : KState} (h : Inv st) (i : Int) (f : thread → thread)
    (hf : ∀ t, (f t).tid = t.tid) (hs : ∀ t, (f t).status = t.status) :
    Inv (updThread st i f) :=
  Inv_map_fields h (fun t => if t.tid == i then f t else t)
    (fun t => by by_cases ht : t.tid = i <;> simp [ht, hf])
    (fun t => by by_cases ht : t.tid = i <;> simp [ht, hs]) rfl rfl rfl rfl

theorem Inv_mlfqs_tick_cpu {st : KState} (h : Inv st) : Inv (mlfqs_tick_cpu st) :=
  Inv_updThread h _ _ (fun _ => rfl) (fun _ => rfl)

theorem Inv_mlfqs_on_second {st : KState} (h : Inv st) : Inv (mlfqs_on_second st) :=
  Inv_map_fields h
    (fun t => { t with recent_cpu := (recent_cpu_second
        (load_avg_second st.load_avg (ready_and_running_count st)) t.nice t.recent_cpu) })
    (fun _ => rfl) (fun _ => rfl) rfl rfl rfl rfl

theorem Inv_mlfqs_recompute {st : KState} (h : Inv st) : Inv (mlfqs_recompute st) :=
  Inv_map_fields h
    (fun t => { t with priority := mlfqs_priority t.recent_cpu t.nice })
    (fun _ => rfl) (fun _ => rfl) rfl rfl rfl rfl

theorem Inv_tick_accounting {st : KState} (h : Inv st) : Inv (tick_accounting st) := by
  have h1 : Inv ({ st with ticks := st.ticks + 1 } : KState) := h
  have h2 : ∀ s : KState, Inv s → Inv (if s.mlfqs then mlfqs_tick_cpu s else s) := by
    intro s hs
    split
    · exact Inv_mlfqs_tick_cpu hs
    · exact hs
  have h3 : ∀ s : KState, Inv s →
      Inv (if s.mlfqs ∧ s.ticks % TIMER_FREQ = 0 then mlfqs_on_second s else s) := by
    intro s hs
    split
    · exact Inv_mlfqs_on_second hs
    · exact hs
  have h4 : ∀ s : KState, Inv s →
      Inv (if s.mlfqs ∧ s.ticks % 4 = 0 then mlfqs_recompute s else s) := by
    intro s hs
    split
    · exact Inv_mlfqs_recompute hs
    · exact hs
  exact h4 _ (h3 _ (h2 _ h1))

theorem thread_yield_inv {st st' : KState} (h : Inv st)
    (hy : thread_yield st = some st') : Inv st' := by
  unfold thread_yield at hy
  exact schedule_inv (vacate_midinv (by decide) h) hy

theorem thread_block_inv {st st' : KState} (h : Inv st)
    (hb : thread_block st = some st') : Inv st' := by
  unfold thread_block at hb
  exact schedule_inv (vacate_midinv (by decide) h) hb

theorem thread_exit_inv {st st' : KState} (h : Inv st)
    (he : thread_exit st = some st') : Inv st' := by
  unfold thread_exit at he
  exact schedule_inv (vacate_midinv (by decide) h) he

theorem thread_yield_priority_inv {st st' : KState} (h : Inv st)
    (hy : thread_yield_priority st = some st') : Inv st' := by
  unfold thread_yield_priority at hy
  cases hpick : pick_next (prioOf st) st.ready with
  | none =>
    rw [hpick] at hy
    simp only [Option.some.injEq] at hy
    exact hy ▸ h
  | some n =>
    rw [hpick] at hy
    by_cases hcond : prioOf st st.running < prioOf st n
    · simp only [hcond, if_true] at hy
      exact thread_yield_inv h hy
    · simp only [hcond, if_false, Option.some.injEq] at hy
      exact hy ▸ h

theorem unblock_state_inv {st : KState} {i : Int} {t : thread} (h : Inv st)
    (hget : getThread st i = some t)
    (hblocked : t.status = thread_status.THREAD_BLOCKED) :
    Inv { updThread st i (fun u => { u with status := thread_status.THREAD_READY }) with
          ready := st.ready ++ [i] } := by
  obtain ⟨hmem, htid⟩ := getThread_some hget
  obtain ⟨hnd, hrd, hrs, hrm, ⟨tr, htr, htidr, hstat⟩, huniq, hlt⟩ := h
  have hnotready : i ∉ st.ready := by
    intro hc
    have hr := (hrs t hmem).mp (htid ▸ hc)
    rw [hr] at hblocked
    exact absurd hblocked (by simp)
  have hir : i ≠ st.running := by
    intro hc
    have : t = tr := tid_inj hnd hmem htr (by rw [htid, hc, htidr])
    rw [this, hstat] at hblocked
    exact absurd hblocked (by simp)
  have htids2 : tids { (updThread st i (fun u => { u with status := thread_status.THREAD_READY })) with
      ready := st.ready ++ [i] } = tids st :=
    tids_updThread st i _ (fun _ => rfl)
  refine ⟨?_, ?_, ?_, ?_, ?_, ?_, ?_⟩
  · rw [htids2]; exact hnd
  · show (st.ready ++ [i]).Nodup
    rw [List.nodup_append]
    exact ⟨hrd, List.nodup_singleton _, by
      intro a ha hb
      rw [List.mem_singleton] at hb
      exact hnotready (hb ▸ ha)⟩
  · intro t' ht'
    obtain ⟨u, hu, rfl⟩ := List.mem_map.mp ht'
    by_cases hut : u.tid = i
    · simp [hut]
    · simp only [beq_iff_eq, hut, if_false]
      show u.tid ∈ st.ready ++ [i] ↔ u.status = thread_status.THREAD_READY
      rw [List.mem_append, List.mem_singleton]
      rw [← hrs u hu]
      constructor
      · rintro (hc | hc)
        · exact hc
        · exact absurd hc hut
      · intro hc; exact Or.inl hc
  · intro j hj
    rw [htids2]
    rcases List.mem_append.mp hj with hj | hj
    · exact hrm j hj
    · rw [List.mem_singleton] at hj
      exact hj ▸ List.mem_map.mpr ⟨t, hmem, htid⟩
  · refine ⟨tr, ?_, htidr, hstat⟩
    apply List.mem_map.mpr
    refine ⟨tr, htr, ?_⟩
    have : ¬(tr.tid = i) := fun hc => hir ((hc ▸ htidr).symm ▸ rfl)
    simp [this]
  · intro t' ht' hstat'
    obtain ⟨u, hu, rfl⟩ := List.mem_map.mp ht'
    by_cases hut : u.tid = i
    · simp only [hut, beq_self_eq_true, if_true] at hstat'
      exact absurd hstat' (by simp)
    · simp only [beq_iff_eq, hut, if_false] at hstat' ⊢
      exact huniq u hu hstat'
  · intro t' ht'
    obtain ⟨u, hu, rfl⟩ := List.mem_map.mp ht'
    by_cases hut : u.tid = i
    · simp only [hut, beq_self_eq_true, if_true]
      exact hut ▸ hlt u hu
    · simp only [beq_iff_eq, hut, if_false]
      exact hlt u hu

theorem thread_unblock_inv {st st' : KState} {i : Int} (h : Inv st)
    (hu : thread_unblock st i = some st') : Inv st' := by
  unfold thread_unblock at hu
  cases hget : getThread st i with
  | none => rw [hget] at hu; exact absurd hu (by simp)
  | some t =>
    rw [hget] at hu
    by_cases hblocked : t.status = thread_status.THREAD_BLOCKED
    · simp only [hblocked, if_pos] at hu
      exact thread_yield_priority_inv (unblock_state_inv h hget hblocked) hu
    · simp only [hblocked, if_neg, reduceIte] at hu
      exact absurd hu (by simp)

theorem thread_create_inv {st : KState} (h : Inv st) (p : Int) :
    Inv (thread_create st p).2 := by
  unfold thread_create
  split
  · exact h
  case isFalse hrange =>
    obtain ⟨hnd, hrd, hrs, hrm, ⟨tr, htr, htidr, hstat⟩, huniq, hlt⟩ := h
    show Inv { st with
      threads := st.threads ++
        [{ tid := st.next_tid, status := thread_status.THREAD_READY, priority := p,
           b_priority := p, donated := false, nice := 0, recent_cpu := 0,
           waiting_on_lock := none }],
      ready := st.ready ++ [st.next_tid],
      next_tid := st.next_tid + 1 }
    have hfresh : st.next_tid ∉ tids st := by
      intro hc
      obtain ⟨u, hu, hut⟩ := List.mem_map.mp hc
      exact absurd (hut ▸ hlt u hu) (lt_irrefl _)
    have hfreshr : st.next_tid ∉ st.ready := fun hc => hfresh (hrm _ hc)
    refine ⟨?_, ?_, ?_, ?_, ?_, ?_, ?_⟩
    · show ((st.threads ++
        [({ tid := st.next_tid, status := thread_status.THREAD_READY, priority := p,
            b_priority := p, donated := false, nice := 0, recent_cpu := 0,
            waiting_on_lock := none } : thread)]).map (fun t => t.tid)).Nodup
      rw [List.map_append]
      rw [List.nodup_append]
      refine ⟨hnd, List.nodup_singleton _, ?_⟩
      intro a ha hb
      simp only [List.map_cons, List.map_nil, List.mem_singleton] at hb
      exact hfresh (hb ▸ ha)
    · show (st.ready ++ [st.next_tid]).Nodup
      rw [List.nodup_append]
      exact ⟨hrd, List.nodup_singleton _, by
        intro a ha hb
        rw [List.mem_singleton] at hb
        exact hfreshr (hb ▸ ha)⟩
    · intro t' ht'
      rcases List.mem_append.mp ht' with ht' | ht'
      · show t'.tid ∈ st.ready ++ [st.next_tid] ↔ _
        rw [List.mem_append, List.mem_singleton]
        rw [← hrs t' ht']
        constructor
        · rintro (hc | hc)
          · exact hc
          · exact absurd (hc ▸ hlt t' ht') (lt_irrefl _)
        · intro hc; exact Or.inl hc
      · rw [List.mem_singleton] at ht'
        subst ht'
        simp
    · intro j hj
      rcases List.mem_append.mp hj with hj | hj
      · have := hrm j hj
        obtain ⟨u, hu, hut⟩ := List.mem_map.mp this
        exact List.mem_map.mpr ⟨u, List.mem_append_left _ hu, hut⟩
      · rw [List.mem_singleton] at hj
        subst hj
        exact List.mem_map.mpr ⟨_, List.mem_append_right _ (List.mem_singleton_self _), rfl⟩
    · exact ⟨tr, List.mem_append_left _ htr, htidr, hstat⟩
    · intro t' ht' hstat'
      rcases List.mem_append.mp ht' with ht' | ht'
      · exact huniq t' ht' hstat'
      · rw [List.mem_singleton] at ht'
        subst ht'
        exact absurd hstat' (by simp)
    · intro t' ht'
      rcases List.mem_append.mp ht' with ht' | ht'
      · have := hlt t' ht'
        show t'.tid < st.next_tid + 1
        omega
      · rw [List.mem_singleton] at ht'
        subst ht'
        show st.next_tid < st.next_tid + 1
        omega

theorem thread_tick_inv {st st' : KState} (h : Inv st)
    (ht : thread_tick st = some st') : Inv st' := by
  unfold thread_tick at ht
  have h4 := Inv_tick_accounting h
  split at ht
  · exact thread_yield_inv h4 ht
  · exact thread_yield_priority_inv h4 ht

theorem step_inv {op : Op} {st st' : KState} (h : Inv st)
    (hs : step op st = some st') : Inv st' := by
  cases op with
  | spawn p =>
    simp only [step, Option.some.injEq] at hs
    exact hs ▸ thread_create_inv h p
  | block => exact thread_block_inv h hs
  | unblock i => exact thread_unblock_inv h hs
  | yield => exact thread_yield_inv h hs
  | tick => exact thread_tick_inv h hs
  | exit => exact thread_exit_inv h hs

theorem run_inv : ∀ {ops : List Op} {st st' : KState},
    Inv st → run ops st = some st' → Inv st' := by
  intro ops
  induction ops with
  | nil =>
    intro st st' h hr
    unfold run at hr
    simp only [Option.some.injEq] at hr
    exact hr ▸ h
  | cons op rest ih =>
    intro st st' h hr
    unfold run at hr
    cases hstep : step op st with
    | none => rw [hstep] at hr; exact absurd hr (by simp)
    | some st1 => rw [hstep] at hr; exact ih (step_inv h hstep) hr

/-!  A reclaimed tid never reappears. -/

/-- Thread `i` has been reclaimed: it is no longer registered, and its tid is
below the allocation counter, so no later spawn can reuse it. -/
def gone (i : Int) (st : KState) : Prop :=
  (∀ t ∈ st.threads, t.tid ≠ i) ∧ i < st.next_tid

theorem gone_of_threads_sub {i : Int} {st st' : KState} (h : gone i st)
    (hsub : ∀ t' ∈ st'.threads, ∃ t ∈ st.threads, t'.tid = t.tid)
    (hnt : st'.next_tid = st.next_tid) : gone i st' := by
  refine ⟨?_, hnt ▸ h.2⟩
  intro t' ht' hc
  obtain ⟨t, ht, htt⟩ := hsub t' ht'
  exact h.1 t ht (htt ▸ hc)

theorem gone_vacate {i : Int} {st : KState} {s : thread_status} (h : gone i st) :
    gone i (vacate st s) := by
  apply gone_of_threads_sub h
  · intro t' ht'
    have hth : (vacate st s).threads
        = st.threads.map (fun t => if t.tid == st.running then { t with status := s } else t) := by
      unfold vacate updThread
      split <;> rfl
    rw [hth] at ht'
    obtain ⟨u, hu, rfl⟩ := List.mem_map.mp ht'
    refine ⟨u, hu, ?_⟩
    by_cases hut : u.tid = st.running <;> simp [hut]
  · unfold vacate updThread
    split <;> rfl

theorem gone_schedule {i : Int} {st st' : KState} (h : gone i st)
    (hsch : schedule st = some st') : gone i st' := by
  unfold schedule at hsch
  cases hpick : pick_next (prioOf st) st.ready with
  | none => rw [hpick] at hsch; exact absurd hsch (by simp)
  | some n =>
    rw [hpick] at hsch
    simp only [Option.some.injEq] at hsch
    subst hsch
    apply gone_of_threads_sub h
    · intro t' ht'
      obtain ⟨ht'm, -⟩ := List.mem_filter.mp ht'
      obtain ⟨u, hu, rfl⟩ := List.mem_map.mp ht'm
      refine ⟨u, hu, ?_⟩
      by_cases hun : u.tid = n <;> simp [hun]
    · rfl

theorem gone_yield {i : Int} {st st' : KState} (h : gone i st)
    (hy : thread_yield st = some st') : gone i st' := by
  unfold thread_yield at hy
  exact gone_schedule (gone_vacate h) hy

theorem gone_yield_priority {i : Int} {st st' : KState} (h : gone i st)
    (hy : thread_yield_priority st = some st') : gone i st' := by
  unfold thread_yield_priority at hy
  cases hpick : pick_next (prioOf st) st.ready with
  | none =>
    rw [hpick] at hy
    simp only [Option.some.injEq] at hy
    exact hy ▸ h
  | some n =>
    rw [hpick] at hy
    by_cases hcond : prioOf st st.running < prioOf st n
    · simp only [hcond, if_true] at hy
      exact gone_yield h hy
    · simp only [hcond, if_false, Option.some.injEq] at hy
      exact hy ▸ h

theorem gone_updThread {i j : Int} {st : KState} (h : gone i st) (f : thread → thread)
    (hf : ∀ t, (f t).tid = t.tid) : gone i (updThread st j f) := by
  apply gone_of_threads_sub h
  · intro t' ht'
    obtain ⟨u, hu, rfl⟩ := List.mem_map.mp ht'
    refine ⟨u, hu, ?_⟩
    by_cases hut : u.tid = j <;> simp [hut, hf]
  · rfl

theorem gone_unblock {i j : Int} {st st' : KState} (h : gone i st)
    (hu : thread_unblock st j = some st') : gone i st' := by
  unfold thread_unblock at hu
  cases hget : getThread st j with
  | none => rw [hget] at hu; exact absurd hu (by simp)
  | some t =>
    rw [hget] at hu
    by_cases hblocked : t.status = thread_status.THREAD_BLOCKED
    · simp only [hblocked, if_pos] at hu
      apply gone_yield_priority ?_ hu
      exact gone_of_threads_sub h
        (by
          intro t' ht'
          obtain ⟨u, hu2, rfl⟩ := List.mem_map.mp ht'
          refine ⟨u, hu2, ?_⟩
          by_cases hut : u.tid = j <;> simp [hut])
        rfl
    · simp only [hblocked, if_neg, reduceIte] at hu
      exact absurd hu (by simp)

theorem gone_tick_accounting {i : Int} {st : KState} (h : gone i st) :
    gone i (tick_accounting st) := by
  have h1 : gone i ({ st with ticks := st.ticks + 1 } : KState) := h
  have h2 : ∀ s : KState, gone i s → gone i (if s.mlfqs then mlfqs_tick_cpu s else s) := by
    intro s hs
    split
    · exact gone_updThread hs _ (fun _ => rfl)
    · exact hs
  have h3 : ∀ s : KState, gone i s →
      gone i (if s.mlfqs ∧ s.ticks % TIMER_FREQ = 0 then mlfqs_on_second s else s) := by
    intro s hs
    split
    · exact gone_of_threads_sub hs
        (by
          intro t' ht'
          obtain ⟨u, hu, rfl⟩ := List.mem_map.mp ht'
          exact ⟨u, hu, rfl⟩)
        rfl
    · exact hs
  have h4 : ∀ s : KState, gone i s →
      gone i (if s.mlfqs ∧ s.ticks % 4 = 0 then mlfqs_recompute s else s) := by
    intro s hs
    split
    · exact gone_of_threads_sub hs
        (by
          intro t' ht'
          obtain ⟨u, hu, rfl⟩ := List.mem_map.mp ht'
          exact ⟨u, hu, rfl⟩)
        rfl
    · exact hs
  exact h4 _ (h3 _ (h2 _ h1))

theorem gone_tick {i : Int} {st st' : KState} (h : gone i st)
    (ht : thread_tick st = some st') : gone i st' := by
  unfold thread_tick at ht
  have h4 := gone_tick_accounting h
  split at ht
  · exact gone_yield h4 ht
  · exact gone_yield_priority h4 ht

theorem gone_create {i : Int} {st : KState} (h : gone i st) (p : Int) :
    gone i (thread_create st p).2 := by
  unfold thread_create
  split
  · exact h
  · refine ⟨?_, by show i < st.next_tid + 1; have := h.2; omega⟩
    intro t' ht' hc
    rcases List.mem_append.mp ht' with ht' | ht'
    · exact h.1 t' ht' hc
    · rw [List.mem_singleton] at ht'
      subst ht'
      have := h.2
      simp only [] at hc
      omega

theorem step_gone {i : Int} {op : Op} {st st' : KState} (h : gone i st)
    (hs : step op st = some st') : gone i st' := by
  cases op with
  | spawn p =>
    simp only [step, Option.some.injEq] at hs
    exact hs ▸ gone_create h p
  | block =>
    unfold step thread_block at hs
    exact gone_schedule (gone_vacate h) hs
  | unblock j => exact gone_unblock h hs
  | yield => exact gone_yield h hs
  | tick => exact gone_tick h hs
  | exit =>
    unfold step thread_exit at hs
    exact gone_schedule (gone_vacate h) hs

theorem run_gone : ∀ {ops : List Op} {i : Int} {st st' : KState},
    gone i st → run ops st = some st' → gone i st' := by
  intro ops
  induction ops with
  | nil =>
    intro i st st' h hr
    unfold run at hr
    simp only [Option.some.injEq] at hr
    exact hr ▸ h
  | cons op rest ih =>
    intro i st st' h hr
    unfold run at hr
    cases hstep : step op st with
    | none => rw [hstep] at hr; exact absurd hr (by simp)
    | some st1 => rw [hstep] at hr; exact ih (step_gone h hstep) hr

theorem getThread_of_mem {st : KState} (hnd : (tids st).Nodup) {t : thread}
    (ht : t ∈ st.threads) {i : Int} (hi : t.tid = i) : getThread st i = some t := by
  unfold getThread
  cases hfind : st.threads.find? (fun u => u.tid == i) with
  | none =>
    have := List.find?_eq_none.mp hfind t ht
    simp [hi] at this
  | some u =>
    have ⟨hmem, htid⟩ : u ∈ st.threads ∧ u.tid = i := by
      refine ⟨List.mem_of_find?_eq_some hfind, ?_⟩
      have := List.find?_some hfind
      simpa using this
    rw [tid_inj hnd hmem ht (htid.trans hi.symm)]

/-- The exiting thread is reclaimed by the context switch inside
`thread_exit`. -/
theorem exit_gone {st st' : KState} (hInv : Inv st)
    (hexit : thread_exit st = some st') : gone st.running st' := by
  have hnr : st.running ∉ st.ready := running_not_mem_ready hInv
  obtain ⟨hnd, hrd, hrs, hrm, ⟨tr, htr, htid, hstat⟩, huniq, hlt⟩ := hInv
  unfold thread_exit at hexit
  have hdying : ∀ u ∈ (vacate st thread_status.THREAD_DYING).threads,
      u.tid = st.running → u.status = thread_status.THREAD_DYING := by
    intro u hu hut
    have hth : (vacate st thread_status.THREAD_DYING).threads
        = st.threads.map (fun t => if t.tid == st.running
            then { t with status := thread_status.THREAD_DYING } else t) := by
      unfold vacate updThread
      split <;> rfl
    rw [hth] at hu
    obtain ⟨v, hv, rfl⟩ := List.mem_map.mp hu
    by_cases hvt : v.tid = st.running
    · simp [hvt]
    · simp only [beq_iff_eq, hvt, if_false] at hut
  have hready2 : (vacate st thread_status.THREAD_DYING).ready = st.ready := by
    unfold vacate updThread
    simp
  unfold schedule at hexit
  cases hpick : pick_next (prioOf (vacate st thread_status.THREAD_DYING))
      (vacate st thread_status.THREAD_DYING).ready with
  | none => rw [hpick] at hexit; exact absurd hexit (by simp)
  | some n =>
    rw [hpick] at hexit
    simp only [Option.some.injEq] at hexit
    subst hexit
    have hn : n ∈ st.ready := hready2 ▸ pick_next_mem hpick
    have hnrun : n ≠ st.running := fun hc => hnr (hc ▸ hn)
    constructor
    · intro t' ht' hc
      obtain ⟨ht'm, ht'p⟩ := List.mem_filter.mp ht'
      obtain ⟨u, hu, rfl⟩ := List.mem_map.mp ht'm
      by_cases hun : u.tid = n
      · simp only [hun, beq_self_eq_true, if_true] at hc
        exact hnrun (hc ▸ rfl)
      · simp only [beq_iff_eq, hun, if_false] at hc ht'p
        have := hdying u hu hc
        simp [this] at ht'p
    · show st.running < (vacate st thread_status.THREAD_DYING).next_tid
      have hnt : (vacate st thread_status.THREAD_DYING).next_tid = st.next_tid := by
        unfold vacate updThread
        split <;> rfl
      rw [hnt]
      exact htid ▸ hlt tr htr


/-!  Synchronous preemption on unblock. -/

theorem prioOf_eq_of_threads {a b : KState} (h : a.threads = b.threads) (j : Int) :
    prioOf a j = prioOf b j := by
  unfold prioOf getThread
  rw [h]

theorem pick_next_some_of_ne_nil (f : Int → Int) :
    ∀ {l : List Int}, l ≠ [] → ∃ x, pick_next f l = some x := by
  intro l
  cases l with
  | nil => intro h; exact absurd rfl h
  | cons x xs =>
    intro _
    unfold pick_next
    cases pick_next f xs with
    | none => exact ⟨x, rfl⟩
    | some y =>
      by_cases hc : f x < f y
      · exact ⟨y, if_pos hc⟩
      · exact ⟨x, if_neg hc⟩

theorem thread_unblock_eq {st : KState} {i : Int} {t : thread}
    (hget : getThread st i = some t)
    (hblocked : t.status = thread_status.THREAD_BLOCKED) :
    thread_unblock st i = thread_yield_priority
      { (updThread st i (fun u => { u with status := thread_status.THREAD_READY })) with
        ready := st.ready ++ [i] } := by
  unfold thread_unblock
  rw [hget]
  exact if_pos hblocked

theorem unblock_preempt_core {st : KState} {i : Int} {t : thread}
    (hget : getThread st i = some t)
    (hblocked : t.status = thread_status.THREAD_BLOCKED)
    (hrun : prioOf st st.running < t.priority)
    (hready : ∀ j ∈ st.ready, j ≠ i → prioOf st j < t.priority) :
    ∃ st', thread_unblock st i = some st' ∧ st'.running = i := by
  have hprio_i : prioOf st i = t.priority := by
    unfold prioOf
    rw [hget]
  have hfun1 : prioOf { (updThread st i
      (fun u => { u with status := thread_status.THREAD_READY })) with
      ready := st.ready ++ [i] } = prioOf st := by
    funext j
    have h1 : prioOf { (updThread st i
        (fun u => { u with status := thread_status.THREAD_READY })) with
        ready := st.ready ++ [i] } j
        = prioOf (updThread st i (fun u => { u with status := thread_status.THREAD_READY })) j :=
      prioOf_eq_of_threads rfl j
    rw [h1]
    exact prioOf_updThread st i (fun u => { u with status := thread_status.THREAD_READY })
      (fun _ => rfl) (fun _ => rfl) j
  have hfun2 : prioOf (vacate { (updThread st i
      (fun u => { u with status := thread_status.THREAD_READY })) with
      ready := st.ready ++ [i] } thread_status.THREAD_READY) = prioOf st := by
    funext j
    have h1 : prioOf (vacate { (updThread st i
        (fun u => { u with status := thread_status.THREAD_READY })) with
        ready := st.ready ++ [i] } thread_status.THREAD_READY) j
        = prioOf (updThread { (updThread st i
            (fun u => { u with status := thread_status.THREAD_READY })) with
            ready := st.ready ++ [i] } st.running
            (fun u => { u with status := thread_status.THREAD_READY })) j :=
      prioOf_eq_of_threads rfl j
    rw [h1]
    rw [prioOf_updThread { (updThread st i
        (fun u => { u with status := thread_status.THREAD_READY })) with
        ready := st.ready ++ [i] } st.running
        (fun u => { u with status := thread_status.THREAD_READY })
        (fun _ => rfl) (fun _ => rfl) j]
    exact congrFun hfun1 j
  have hmax : ∀ y, y ∈ st.ready ∨ y = i ∨ y = st.running → y ≠ i →
      prioOf st y < prioOf st i := by
    intro y hy hyne
    rw [hprio_i]
    rcases hy with hy | hy | hy
    · exact hready y hy hyne
    · exact absurd hy hyne
    · exact hy ▸ hrun
  have hpick1 : pick_next (prioOf { (updThread st i
      (fun u => { u with status := thread_status.THREAD_READY })) with
      ready := st.ready ++ [i] }) (st.ready ++ [i]) = some i := by
    rw [hfun1]
    apply pick_next_eq_of_strict_max
    · exact List.mem_append_right _ (List.mem_singleton_self i)
    · intro y hy hyne
      apply hmax y ?_ hyne
      rcases List.mem_append.mp hy with hy | hy
      · exact Or.inl hy
      · exact Or.inr (Or.inl (List.mem_singleton.mp hy))
  have hcond : prioOf { (updThread st i
      (fun u => { u with status := thread_status.THREAD_READY })) with
      ready := st.ready ++ [i] } st.running
      < prioOf { (updThread st i
      (fun u => { u with status := thread_status.THREAD_READY })) with
      ready := st.ready ++ [i] } i := by
    rw [hfun1, hprio_i]
    exact hrun
  have h4 : thread_yield_priority { (updThread st i
      (fun u => { u with status := thread_status.THREAD_READY })) with
      ready := st.ready ++ [i] }
      = thread_yield { (updThread st i
      (fun u => { u with status := thread_status.THREAD_READY })) with
      ready := st.ready ++ [i] } := by
    unfold thread_yield_priority
    rw [hpick1]
    exact if_pos hcond
  have hpick2 : pick_next (prioOf (vacate { (updThread st i
      (fun u => { u with status := thread_status.THREAD_READY })) with
      ready := st.ready ++ [i] } thread_status.THREAD_READY))
      ((vacate { (updThread st i
      (fun u => { u with status := thread_status.THREAD_READY })) with
      ready := st.ready ++ [i] } thread_status.THREAD_READY).ready) = some i := by
    rw [hfun2]
    show pick_next (prioOf st) ((st.ready ++ [i]) ++ [st.running]) = some i
    apply pick_next_eq_of_strict_max
    · exact List.mem_append_left _ (List.mem_append_right _ (List.mem_singleton_self i))
    · intro y hy hyne
      apply hmax y ?_ hyne
      rcases List.mem_append.mp hy with hy | hy
      · rcases List.mem_append.mp hy with hy | hy
        · exact Or.inl hy
        · exact Or.inr (Or.inl (List.mem_singleton.mp hy))
      · exact Or.inr (Or.inr (List.mem_singleton.mp hy))
  have h5 : ∃ stF, thread_yield { (updThread st i
      (fun u => { u with status := thread_status.THREAD_READY })) with
      ready := st.ready ++ [i] } = some stF ∧ stF.running = i := by
    unfold thread_yield schedule
    rw [hpick2]
    exact ⟨_, rfl, rfl⟩
  obtain ⟨stF, hF, hFr⟩ := h5
  refine ⟨stF, ?_, hFr⟩
  rw [thread_unblock_eq hget hblocked, h4]
  exact hF


/-!  Fixed-point rounding facts. -/

theorem fp_to_int_round_eq (x : Int) : fp_to_int_round x =
    if 0 ≤ x then (x + 8192) / 16384 else -((-x + 8192) / 16384) := by
  unfold fp_to_int_round fp_f
  have h2 : (16384 : Int) / 2 = 8192 := by norm_num
  rw [h2]
  split
  case isTrue h =>
    rw [Int.tdiv_eq_ediv (by omega) (by norm_num)]
  case isFalse h =>
    have h3 : x - 8192 = -(-x + 8192) := by ring
    rw [h3, Int.neg_tdiv, Int.tdiv_eq_ediv (by omega) (by norm_num)]

theorem fp_to_int_round_to_fp (n : Int) : fp_to_int_round (to_fp n) = n := by
  rw [fp_to_int_round_eq]
  unfold to_fp fp_f
  split <;> omega

theorem fp_to_int_round_tie_pos {n : Int} (h : 0 ≤ n) :
    fp_to_int_round (to_fp n + fp_f / 2) = n + 1 := by
  rw [fp_to_int_round_eq]
  unfold to_fp fp_f
  split <;> omega

theorem fp_to_int_round_tie_neg {n : Int} (h : 0 ≤ n) :
    fp_to_int_round (-(to_fp n) - fp_f / 2) = -(n + 1) := by
  rw [fp_to_int_round_eq]
  unfold to_fp fp_f
  split <;> omega

theorem fp_to_int_round_nearest (x : Int) :
    -(fp_f / 2) ≤ to_fp (fp_to_int_round x) - x ∧ to_fp (fp_to_int_round x) - x ≤ fp_f / 2 := by
  rw [fp_to_int_round_eq]
  unfold to_fp fp_f
  split <;> constructor <;> omega

theorem recent_cpu_second_zero_load (nice rc : Int) :
    recent_cpu_second 0 nice rc = to_fp nice := by
  unfold recent_cpu_second fp_mul fp_div fp_mul_int fp_add_int
  norm_num

theorem mlfqs_priority_bounds (rc nice : Int) :
    PRI_MIN ≤ mlfqs_priority rc nice ∧ mlfqs_priority rc nice ≤ PRI_MAX := by
  unfold mlfqs_priority clamp_pri PRI_MIN PRI_MAX
  constructor
  · exact le_max_left _ _
  · apply max_le (by norm_num)
    exact min_le_left _ _

theorem mlfqs_priority_nice_zero {rc : Int}
    (h0 : 0 ≤ fp_to_int_round (fp_div_int rc 4))
    (h63 : fp_to_int_round (fp_div_int rc 4) ≤ PRI_MAX) :
    mlfqs_priority rc 0 = 63 - fp_to_int_round (fp_div_int rc 4) := by
  unfold PRI_MAX at h63
  unfold mlfqs_priority clamp_pri PRI_MIN PRI_MAX
  rw [min_eq_right (by omega), max_eq_right (by omega)]
  ring


/-!  Priority donation lemmas. -/

theorem getThread_eq_of_threads {a b : KState} (h : a.threads = b.threads) (j : Int) :
    getThread a j = getThread b j := by
  unfold getThread
  rw [h]

theorem donate_one_eq {st : KState} {W H : Int} {w h : thread}
    (hW : getThread st W = some w) (hH : getThread st H = some h)
    (hp : h.priority < w.priority) (hwl : h.waiting_on_lock = none) :
    donate 1 W H st
      = updThread st H (fun u => { u with priority := w.priority, donated := true }) := by
  conv_lhs => rw [donate]
  rw [hW, hH]
  dsimp only
  rw [if_pos hp, hwl]

theorem le_foldr_max (b : Int) : ∀ l : List Int, b ≤ l.foldr max b := by
  intro l
  induction l with
  | nil => exact le_refl b
  | cons x xs ih =>
    show b ≤ max x (xs.foldr max b)
    exact le_trans ih (le_max_right _ _)

theorem mem_le_foldr_max (b : Int) :
    ∀ {l : List Int} {x : Int}, x ∈ l → x ≤ l.foldr max b := by
  intro l
  induction l with
  | nil => intro x h; exact absurd h (by simp)
  | cons y ys ih =>
    intro x h
    rcases List.mem_cons.mp h with h | h
    · exact h ▸ le_max_left _ _
    · exact le_trans (ih h) (le_max_right _ _)

theorem foldr_max_mem (b : Int) : ∀ l : List Int, l.foldr max b = b ∨ l.foldr max b ∈ l := by
  intro l
  induction l with
  | nil => exact Or.inl rfl
  | cons x xs ih =>
    show max x (xs.foldr max b) = b ∨ max x (xs.foldr max b) ∈ x :: xs
    rcases le_total x (xs.foldr max b) with hle | hle
    · rw [max_eq_right hle]
      rcases ih with ih | ih
      · exact Or.inl ih
      · exact Or.inr (List.mem_cons_of_mem _ ih)
    · rw [max_eq_left hle]
      exact Or.inr (List.mem_cons_self _ _)

theorem release_eq {st : KState} {holder l : Int} {h : thread}
    (hH : getThread st holder = some h) :
    release st holder l
      = updThread { st with locks := st.locks.map (fun k =>
            if k.lid == l then { k with holder := none } else k) } holder
          (fun t => { t with
            priority := (donor_priorities st holder l).foldr max h.b_priority,
            donated := decide (h.b_priority
              < (donor_priorities st holder l).foldr max h.b_priority) }) := by
  unfold release
  rw [hH]


/-!  Relationship-tracker lemmas. -/

theorem find?_append_none {p : thread → Bool} {l1 : List thread} (l2 : List thread)
    (h : l1.find? p = none) : (l1 ++ l2).find? p = l2.find? p := by
  induction l1 with
  | nil => simp
  | cons x xs ih =>
    by_cases hpx : p x = true
    · rw [List.find?_cons_of_pos _ hpx] at h
      exact absurd h (by simp)
    · rw [List.find?_cons_of_neg _ hpx] at h
      rw [List.cons_append, List.find?_cons_of_neg _ hpx]
      exact ih h

theorem find_report_exit {children : List relationship} {cid : Int} {r : relationship}
    (s : Int) (hfind : children.find? (fun x => x.child_pid == cid) = some r) :
    (report_exit children cid s).find? (fun x => x.child_pid == cid)
      = some { r with child_exited := true, exit_status := s } := by
  unfold report_exit
  rw [List.find?_map]
  have hpred : ((fun x : relationship => x.child_pid == cid) ∘ fun x =>
      if x.child_pid == cid then { x with child_exited := true, exit_status := s } else x)
      = fun x : relationship => x.child_pid == cid := by
    funext x
    by_cases hx : x.child_pid = cid
    · simp [Function.comp, hx]
    · simp [Function.comp, hx]
  rw [hpred, hfind]
  have hr := List.find?_some hfind
  simp only [beq_iff_eq] at hr
  simp [hr]

theorem find_filter_ne_none (children : List relationship) (cid : Int) :
    (children.filter (fun x => !(x.child_pid == cid))).find?
      (fun x => x.child_pid == cid) = none := by
  rw [List.find?_eq_none]
  intro x hx
  have hpx := (List.mem_filter.mp hx).2
  simp only [Bool.not_eq_true', beq_eq_false_iff_ne] at hpx
  simp [hpx]

/-!  The ten claims. -/

/-- C1: for every state reachable by a sequence of spawn, block, unblock,
yield, tick and exit operations from a state satisfying the scheduler
invariant, a thread is an element of the ready structure if and only if its
status field is `THREAD_READY` — the status field and ready-structure
membership never drift apart. -/
theorem claim_C1_ready_iff_status (ops : List Op) (st st' : KState)
    (hInv : Inv st) (hrun : run ops st = some st') : ready_status_agree st' :=
  (run_inv hInv hrun).2.2.1

theorem Inv_init0 : Inv init0 := by
  unfold Inv ready_status_agree tids
  decide

theorem claim_C1_witness : Inv init0 ∧ ready_status_agree st_demo1 :=
  ⟨Inv_init0, claim_C1_ready_iff_status demo_ops init0 st_demo1 Inv_init0 rfl⟩

/-- C2: when `donate(waiter, holder)` runs because waiter W is about to block
on lock A held by L while W's effective priority exceeds L's, afterwards L's
effective priority equals W's and L is marked as a donation recipient, and
the raise propagates along the chain of lock holders: with W (priority 30)
blocking on lock A held by L while L is blocked on lock B held by M, both L
and M observe effective priority 30. -/
theorem claim_C2_donation_chain (st : KState) (W L M A B : Int) (w l m : thread)
    (hW : getThread st W = some w) (hL : getThread st L = some l)
    (hM : getThread st M = some m) (hLM : L ≠ M)
    (hWA : w.waiting_on_lock = some A) (hlockA : lock_holder st A = some L)
    (hpl : l.priority < w.priority) (hpm : m.priority < w.priority)
    (hLB : l.waiting_on_lock = some B) (hlockB : lock_holder st B = some M)
    (hmw : m.waiting_on_lock = none) :
    (getThread (donate 2 W L st) L).map (fun u => (u.priority, u.donated))
      = some (w.priority, true) ∧
    (getThread (donate 2 W L st) M).map (fun u => (u.priority, u.donated))
      = some (w.priority, true) := by
  obtain ⟨hlmem, hltid⟩ := getThread_some hL
  obtain ⟨hmmem, hmtid⟩ := getThread_some hM
  have e1 : donate 2 W L st = donate 1 L M
      (updThread st L (fun u => { u with priority := w.priority, donated := true })) := by
    conv_lhs => rw [donate]
    rw [hW, hL]
    dsimp only
    rw [if_pos hpl, hLB]
    dsimp only
    rw [hlockB]
  have hL1 : getThread (updThread st L
      (fun u => { u with priority := w.priority, donated := true })) L
      = some { l with priority := w.priority, donated := true } := by
    rw [getThread_updThread st L
      (fun u => { u with priority := w.priority, donated := true }) (fun _ => rfl) L, hL]
    simp [hltid]
  have hM1 : getThread (updThread st L
      (fun u => { u with priority := w.priority, donated := true })) M = some m := by
    rw [getThread_updThread st L
      (fun u => { u with priority := w.priority, donated := true }) (fun _ => rfl) M, hM]
    have hne : ¬(m.tid = L) := by
      rw [hmtid]
      exact Ne.symm hLM
    simp [hne]
  have e2 : donate 1 L M (updThread st L
      (fun u => { u with priority := w.priority, donated := true }))
      = updThread (updThread st L (fun u => { u with priority := w.priority, donated := true })) M
          (fun u => { u with
            priority := ({ l with priority := w.priority, donated := true } : thread).priority,
            donated := true }) :=
    donate_one_eq hL1 hM1 hpm hmw
  rw [e1, e2]
  constructor
  · rw [getThread_updThread
        (updThread st L (fun u => { u with priority := w.priority, donated := true })) M
        (fun u => { u with
          priority := ({ l with priority := w.priority, donated := true } : thread).priority,
          donated := true })
        (fun _ => rfl) L, hL1]
    have hne : ¬(l.tid = M) := by
      rw [hltid]
      exact hLM
    simp [hne]
  · rw [getThread_updThread
        (updThread st L (fun u => { u with priority := w.priority, donated := true })) M
        (fun u => { u with
          priority := ({ l with priority := w.priority, donated := true } : thread).priority,
          donated := true })
        (fun _ => rfl) M, hM1]
    simp [hmtid]

theorem claim_C2_witness :
    (getThread (donate 2 1 2 dst) 2).map (fun u => (u.priority, u.donated))
      = some (30, true) ∧
    (getThread (donate 2 1 2 dst) 3).map (fun u => (u.priority, u.donated))
      = some (30, true) :=
  claim_C2_donation_chain dst 1 2 3 10 11
    ⟨1, thread_status.THREAD_BLOCKED, 30, 30, false, 0, 0, some 10⟩
    ⟨2, thread_status.THREAD_BLOCKED, 10, 10, false, 0, 0, some 11⟩
    ⟨3, thread_status.THREAD_RUNNING, 5, 5, false, 0, 0, none⟩
    (by decide) (by decide) (by decide) (by decide) (by decide) (by decide)
    (by decide) (by decide) (by decide) (by decide) (by decide)

/-- C3: after `release(holder, lock)` the holder's effective priority equals
the maximum of its base priority and the highest priority among waiters on
the other locks it still holds (characterised here as: an upper bound of all
those priorities, at least the base priority, and attained by one of them);
the donation flag stays set exactly when a remaining lock grants a strictly
higher priority, so with no remaining donor the effective priority reverts
to the base priority and the flag clears. -/
theorem claim_C3_release_recompute (st : KState) (holder l : Int) (h : thread)
    (hH : getThread st holder = some h) :
    ∃ h', getThread (release st holder l) holder = some h' ∧
      h'.b_priority = h.b_priority ∧
      h.b_priority ≤ h'.priority ∧
      (∀ p ∈ donor_priorities st holder l, p ≤ h'.priority) ∧
      (h'.priority = h.b_priority ∨ h'.priority ∈ donor_priorities st holder l) ∧
      h'.donated = decide (h.b_priority < h'.priority) ∧
      (donor_priorities st holder l = [] →
        h'.priority = h.b_priority ∧ h'.donated = false) := by
  obtain ⟨hmem, htid⟩ := getThread_some hH
  rw [release_eq hH]
  rw [getThread_updThread { st with locks := st.locks.map (fun k =>
        if k.lid == l then { k with holder := none } else k) } holder
      (fun t => { t with
        priority := (donor_priorities st holder l).foldr max h.b_priority,
        donated := decide (h.b_priority
          < (donor_priorities st holder l).foldr max h.b_priority) })
      (fun _ => rfl) holder]
  have hsame : getThread { st with locks := st.locks.map (fun k =>
      if k.lid == l then { k with holder := none } else k) } holder
      = getThread st holder := rfl
  rw [hsame, hH]
  refine ⟨{ h with
      priority := (donor_priorities st holder l).foldr max h.b_priority,
      donated := decide (h.b_priority
        < (donor_priorities st holder l).foldr max h.b_priority) },
    ?_, rfl, ?_, ?_, ?_, rfl, ?_⟩
  · simp [htid]
  · exact le_foldr_max _ _
  · intro p hp
    exact mem_le_foldr_max _ hp
  · exact foldr_max_mem _ _
  · intro hdp
    rw [hdp]
    simp

theorem claim_C3_witness :
    (∃ h', getThread (release (donate 1 2 1 d2) 1 7) 1 = some h' ∧
      h'.b_priority = 10 ∧
      (10 : Int) ≤ h'.priority ∧
      (∀ p ∈ donor_priorities (donate 1 2 1 d2) 1 7, p ≤ h'.priority) ∧
      (h'.priority = 10 ∨ h'.priority ∈ donor_priorities (donate 1 2 1 d2) 1 7) ∧
      h'.donated = decide ((10 : Int) < h'.priority) ∧
      (donor_priorities (donate 1 2 1 d2) 1 7 = [] →
        h'.priority = 10 ∧ h'.donated = false)) ∧
    (getThread (release (donate 1 2 1 d2) 1 7) 1).map (fun u => (u.priority, u.donated))
      = some (10, false) :=
  ⟨claim_C3_release_recompute (donate 1 2 1 d2) 1 7
      ⟨1, thread_status.THREAD_RUNNING, 20, 10, true, 0, 0, none⟩ (by decide),
   by decide⟩

/-- C4: when `thread_unblock` moves a BLOCKED thread to READY whose effective
priority exceeds that of the currently running thread (and of every other
ready thread), the preemption check runs synchronously inside that single
operation — no tick operation is involved — and the newly unblocked thread
is the one running afterwards. -/
theorem claim_C4_unblock_preempts (st : KState) (i : Int) (t : thread)
    (hget : getThread st i = some t)
    (hblocked : t.status = thread_status.THREAD_BLOCKED)
    (hhigher : prioOf st st.running < t.priority)
    (hready : ∀ j ∈ st.ready, j ≠ i → prioOf st j < t.priority) :
    ∃ st', thread_unblock st i = some st' ∧ st'.running = i :=
  unblock_preempt_core hget hblocked hhigher hready

theorem claim_C4_witness : ∃ st', thread_unblock dst 1 = some st' ∧ st'.running = 1 :=
  claim_C4_unblock_preempts dst 1
    ⟨1, thread_status.THREAD_BLOCKED, 30, 30, false, 0, 0, some 10⟩
    (by decide) (by decide) (by decide) (by decide)

/-- C5: under MLFQS, each tick adds exactly one fixed-point unit to the
running thread's recent_cpu; at each one-second boundary the load average is
recomputed as `(59/60)·load_avg + (1/60)·ready_and_running_count` in fixed
point, and every thread's recent_cpu becomes the factor
`(2·load_avg)/(2·load_avg+1)` (with the new load average) times its old
value plus its increment, all in fixed-point arithmetic; with load average
zero the decay factor vanishes. -/
theorem claim_C5_mlfqs_accounting :
    (∀ (st : KState) (t : thread), getThread st st.running = some t →
      getThread (mlfqs_tick_cpu st) st.running
        = some { t with recent_cpu := t.recent_cpu + to_fp 1 }) ∧
    (∀ st : KState, (mlfqs_on_second st).load_avg
        = fp_mul (fp_div (to_fp 59) (to_fp 60)) st.load_avg
          + fp_mul (fp_div (to_fp 1) (to_fp 60)) (to_fp (ready_and_running_count st))) ∧
    (∀ st : KState, ∀ t' ∈ (mlfqs_on_second st).threads, ∃ t ∈ st.threads,
      t' = { t with recent_cpu := (fp_mul (fp_div (fp_mul_int (mlfqs_on_second st).load_avg 2)
        (fp_add_int (fp_mul_int (mlfqs_on_second st).load_avg 2) 1)) t.recent_cpu
        + to_fp t.nice) }) ∧
    (∀ nice rc : Int, recent_cpu_second 0 nice rc = to_fp nice) := by
  refine ⟨?_, ?_, ?_, recent_cpu_second_zero_load⟩
  · intro st t hget
    unfold mlfqs_tick_cpu
    rw [getThread_updThread st st.running
        (fun u => { u with recent_cpu := recent_cpu_tick u.recent_cpu })
        (fun _ => rfl) st.running, hget]
    obtain ⟨-, htid⟩ := getThread_some hget
    simp [htid, recent_cpu_tick]
  · intro st
    rfl
  · intro st t' ht'
    have hth : (mlfqs_on_second st).threads = st.threads.map (fun t =>
        { t with recent_cpu := (recent_cpu_second
          (load_avg_second st.load_avg (ready_and_running_count st)) t.nice t.recent_cpu) }) :=
      rfl
    rw [hth] at ht'
    obtain ⟨u, hu, rfl⟩ := List.mem_map.mp ht'
    exact ⟨u, hu, rfl⟩

theorem claim_C5_witness :
    getThread (mlfqs_tick_cpu mst0) mst0.running
      = some { t0 with recent_cpu := t0.recent_cpu + to_fp 1 } :=
  claim_C5_mlfqs_accounting.1 mst0 t0 (by decide)

/-- C6: under MLFQS the every-fourth-tick recomputation assigns every thread
the priority `PRI_MAX − round(recent_cpu/4) − nice·2` clamped to
`[PRI_MIN, PRI_MAX] = [0, 63]`, where the fixed-point-to-integer conversion
rounds to nearest with ties away from zero; in particular with nice = 0 and
the unclamped value in range, the derived priority equals
`63 − recent_cpu/4` (rounded). -/
theorem claim_C6_mlfqs_priority :
    (∀ rc nice : Int, PRI_MIN ≤ mlfqs_priority rc nice ∧ mlfqs_priority rc nice ≤ PRI_MAX) ∧
    (∀ st : KState, ∀ t' ∈ (mlfqs_recompute st).threads, ∃ t ∈ st.threads,
      t' = { t with priority := (clamp_pri
        (PRI_MAX - fp_to_int_round (fp_div_int t.recent_cpu 4) - t.nice * 2)) }) ∧
    (∀ n : Int, fp_to_int_round (to_fp n) = n) ∧
    (∀ n : Int, 0 ≤ n → fp_to_int_round (to_fp n + fp_f / 2) = n + 1) ∧
    (∀ n : Int, 0 ≤ n → fp_to_int_round (-(to_fp n) - fp_f / 2) = -(n + 1)) ∧
    (∀ rc : Int, 0 ≤ fp_to_int_round (fp_div_int rc 4) →
      fp_to_int_round (fp_div_int rc 4) ≤ PRI_MAX →
      mlfqs_priority rc 0 = 63 - fp_to_int_round (fp_div_int rc 4)) := by
  refine ⟨mlfqs_priority_bounds, ?_, fp_to_int_round_to_fp,
    fun n h => fp_to_int_round_tie_pos h, fun n h => fp_to_int_round_tie_neg h,
    fun rc h0 h63 => mlfqs_priority_nice_zero h0 h63⟩
  intro st t' ht'
  have hth : (mlfqs_recompute st).threads = st.threads.map (fun t =>
      { t with priority := mlfqs_priority t.recent_cpu t.nice }) := rfl
  rw [hth] at ht'
  obtain ⟨u, hu, rfl⟩ := List.mem_map.mp ht'
  exact ⟨u, hu, rfl⟩

theorem claim_C6_witness :
    mlfqs_priority (to_fp 40) 0 = 63 - fp_to_int_round (fp_div_int (to_fp 40) 4) ∧
    fp_to_int_round (to_fp 2 + fp_f / 2) = 3 :=
  ⟨claim_C6_mlfqs_priority.2.2.2.2.2 (to_fp 40) (by decide) (by decide),
   claim_C6_mlfqs_priority.2.2.2.1 2 (by decide)⟩

/-- C7: `wait(parent, child_id)` returns an error when no child with that
identifier exists; when the child has already recorded its exit it returns
that recorded status without blocking; and because a successful wait removes
the relationship, a second wait for the same child returns an error, never a
stale or default status. -/
theorem claim_C7_wait_semantics :
    (∀ (children : List relationship) (cid : Int),
      children.find? (fun r => r.child_pid == cid) = none →
      (wait children cid).1 = wait_result.error) ∧
    (∀ (children : List relationship) (cid s : Int) (r : relationship),
      children.find? (fun x => x.child_pid == cid) = some r →
      (wait (report_exit children cid s) cid).1 = wait_result.ok s ∧
      (wait (report_exit children cid s) cid).1 ≠ wait_result.blocked) ∧
    (∀ (children : List relationship) (cid s : Int),
      (wait children cid).1 = wait_result.ok s →
      (wait (wait children cid).2 cid).1 = wait_result.error) := by
  refine ⟨?_, ?_, ?_⟩
  · intro children cid hfind
    unfold wait
    rw [hfind]
  · intro children cid s r hfind
    have hfind2 := find_report_exit s hfind
    have hok : (wait (report_exit children cid s) cid).1 = wait_result.ok s := by
      unfold wait
      rw [hfind2]
      rfl
    exact ⟨hok, by rw [hok]; simp⟩
  · intro children cid s hok
    have hcases : (wait children cid).2
        = children.filter (fun x => !(x.child_pid == cid)) := by
      unfold wait at hok ⊢
      cases hfind : children.find? (fun x => x.child_pid == cid) with
      | none =>
        rw [hfind] at hok
        simp at hok
      | some r =>
        rw [hfind] at hok
        by_cases hex : r.child_exited = true
        · simp [hex]
        · simp [hex] at hok
    rw [hcases]
    unfold wait
    rw [find_filter_ne_none]

theorem claim_C7_witness :
    (wait ([] : List relationship) 7).1 = wait_result.error ∧
    ((wait (report_exit crel 7 42) 7).1 = wait_result.ok 42 ∧
      (wait (report_exit crel 7 42) 7).1 ≠ wait_result.blocked) ∧
    (wait (wait (report_exit crel 7 42) 7).2 7).1 = wait_result.error :=
  ⟨claim_C7_wait_semantics.1 [] 7 (by decide),
   claim_C7_wait_semantics.2.1 crel 7 42 ⟨false, false, 0, load_status.LOAD_RUNNING, 7⟩
     (by decide),
   claim_C7_wait_semantics.2.2 (report_exit crel 7 42) 7 42 (by decide)⟩

/-- C8: `thread_create` called with a base priority outside `[0, 63]` fails
with `TID_ERROR` and leaves the state unchanged — no silent clamp — and on
success it creates the new thread in READY state with the given base
priority and places it on the ready structure, eligible for scheduling. -/
theorem claim_C8_spawn_priority_validation :
    (∀ (st : KState) (p : Int), (p < PRI_MIN ∨ PRI_MAX < p) →
      thread_create st p = (TID_ERROR, st)) ∧
    (∀ (st : KState) (p : Int), PRI_MIN ≤ p → p ≤ PRI_MAX → 0 ≤ st.next_tid →
      (∀ t ∈ st.threads, t.tid < st.next_tid) →
      (thread_create st p).1 ≠ TID_ERROR ∧
      ∃ t, getThread (thread_create st p).2 (thread_create st p).1 = some t ∧
        t.status = thread_status.THREAD_READY ∧ t.b_priority = p ∧ t.priority = p ∧
        (thread_create st p).1 ∈ (thread_create st p).2.ready) := by
  constructor
  · intro st p hp
    unfold thread_create
    rw [if_pos hp]
  · intro st p h1 h2 h3 hlt
    have hcond : ¬(p < PRI_MIN ∨ PRI_MAX < p) := by
      push_neg
      exact ⟨h1, h2⟩
    unfold thread_create
    rw [if_neg hcond]
    constructor
    · show st.next_tid ≠ TID_ERROR
      unfold TID_ERROR
      omega
    · refine ⟨⟨st.next_tid, thread_status.THREAD_READY, p, p, false, 0, 0, none⟩,
        ?_, rfl, rfl, rfl, ?_⟩
      · show List.find? (fun t => t.tid == st.next_tid)
            (st.threads ++
              [({ tid := st.next_tid, status := thread_status.THREAD_READY, priority := p,
                  b_priority := p, donated := false, nice := 0, recent_cpu := 0,
                  waiting_on_lock := none } : thread)])
            = some ⟨st.next_tid, thread_status.THREAD_READY, p, p, false, 0, 0, none⟩
        have hnone : st.threads.find? (fun t => t.tid == st.next_tid) = none := by
          rw [List.find?_eq_none]
          intro x hx
          have := hlt x hx
          simp only [beq_iff_eq]
          omega
        rw [find?_append_none _ hnone]
        simp
      · show st.next_tid ∈ st.ready ++ [st.next_tid]
        exact List.mem_append_right _ (List.mem_singleton_self _)

theorem claim_C8_witness :
    thread_create init0 99 = (TID_ERROR, init0) ∧
    ((thread_create init0 40).1 ≠ TID_ERROR ∧
      ∃ t, getThread (thread_create init0 40).2 (thread_create init0 40).1 = some t ∧
        t.status = thread_status.THREAD_READY ∧ t.b_priority = 40 ∧ t.priority = 40 ∧
        (thread_create init0 40).1 ∈ (thread_create init0 40).2.ready) :=
  ⟨claim_C8_spawn_priority_validation.1 init0 99 (by decide),
   claim_C8_spawn_priority_validation.2 init0 40 (by decide) (by decide) (by decide)
     (by decide)⟩

/-- C9: when the MLFQS policy is active, `thread_set_priority` is a no-op —
it leaves the entire scheduler state unchanged for every argument — rather
than a fatal error. -/
theorem claim_C9_set_priority_mlfqs_noop (st : KState) (p : Int) (h : st.mlfqs = true) :
    thread_set_priority st p = st := by
  unfold thread_set_priority
  rw [if_pos h]

theorem claim_C9_witness : thread_set_priority mst0 99 = mst0 :=
  claim_C9_set_priority_mlfqs_noop mst0 99 rfl

/-- C10: `thread_exit` never returns to its caller: the exiting thread
transitions to DYING on the way out, is reclaimed by the scheduler on that
context switch, and for every subsequent operation sequence its tid never
reappears in the registry and is never the running thread again — control
never reaches the code following the call. -/
theorem claim_C10_exit_no_return (st st' st'' : KState) (ops : List Op)
    (hInv : Inv st) (hexit : thread_exit st = some st')
    (hrun : run ops st' = some st'') :
    (∃ u, getThread (vacate st thread_status.THREAD_DYING) st.running = some u ∧
      u.status = thread_status.THREAD_DYING) ∧
    (∀ t ∈ st'.threads, t.tid ≠ st.running) ∧
    (∀ t ∈ st''.threads, t.tid ≠ st.running) ∧
    st''.running ≠ st.running := by
  have hg1 : gone st.running st' := exit_gone hInv hexit
  have hg2 : gone st.running st'' := run_gone hg1 hrun
  have hInv2 : Inv st'' := run_inv (thread_exit_inv hInv hexit) hrun
  obtain ⟨hnd, -, -, -, ⟨tr, htr, htid, hstat⟩, -, -⟩ := hInv
  have htr0 : getThread st st.running = some tr := getThread_of_mem hnd htr htid
  refine ⟨?_, hg1.1, hg2.1, ?_⟩
  · refine ⟨{ tr with status := thread_status.THREAD_DYING }, ?_, rfl⟩
    have hv : getThread (vacate st thread_status.THREAD_DYING) st.running
        = (getThread st st.running).map (fun u =>
            if u.tid == st.running then { u with status := thread_status.THREAD_DYING }
            else u) :=
      getThread_updThread st st.running
        (fun u => { u with status := thread_status.THREAD_DYING }) (fun _ => rfl) st.running
    rw [hv, htr0]
    simp [htid]
  · obtain ⟨-, -, -, -, ⟨tr2, htr2, htid2, -⟩, -, -⟩ := hInv2
    intro hc
    exact hg2.1 tr2 htr2 (htid2.trans hc)

theorem claim_C10_witness :
    (∃ u, getThread (vacate init0 thread_status.THREAD_DYING) init0.running = some u ∧
      u.status = thread_status.THREAD_DYING) ∧
    (∀ t ∈ st_x.threads, t.tid ≠ init0.running) ∧
    (∀ t ∈ st_y.threads, t.tid ≠ init0.running) ∧
    st_y.running ≠ init0.running :=
  claim_C10_exit_no_return init0 st_x st_y [Op.yield] Inv_init0 rfl rfl


end Pintos
